import Mathlib

/-
Verification development for the direct-in-group statement admission tracker
(node/network/statement-distribution/src/vstaging/direct.rs).

The Rust code is embedded shallowly: machine integers become Nat (no
arithmetic here ever approaches the u32/usize bounds used by the source),
the two slot matrices become lists of optional candidate hashes, and the
mutating methods become state-passing functions returning a verdict paired
with the successor state.  Rust indexing panics out of bounds; here reads
use List.getD and writes use List.set, and the in-bounds property needed
for the two behaviours to agree is proved below (claim about totality).
-/

/-- Session-scoped validator identifier, a newtype over u32 in the source. -/
structure ValidatorIndex where
  val : Nat
deriving DecidableEq

/-- Candidate hash, an abstract content digest; modelled as Nat. -/
abbrev CandidateHash := Nat

/-- Verdict for a rejected incoming Seconded message. -/
inductive RejectIncoming
  | PeerExcess
  | OriginatorExcess
  | NotInGroup
deriving DecidableEq

/-- Verdict for an accepted incoming Seconded message. -/
inductive AcceptIncoming
  | YesUnknown
  | YesKnown
deriving DecidableEq

deriving instance DecidableEq for Except

/-- State of the DirectInGroup tracker: the immutable group configuration and
the two flattened slot matrices. -/
structure DirectInGroup where
  validators : List ValidatorIndex
  our_index : Nat
  seconding_limit : Nat
  incoming : List (Option CandidateHash)
  accepted : List (Option CandidateHash)
deriving DecidableEq

/-- Position of a validator in the group list, the first index at which it
occurs (Iterator::position over a linear scan in the source). -/
def index_in_group (validators : List ValidatorIndex) (index : ValidatorIndex) :
    Option Nat :=
  match validators with
  | [] => none
  | v :: rest =>
    if v = index then some 0 else (index_in_group rest index).map (· + 1)

/-- Constructor of the tracker.  Mirrors DirectInGroup::new: fails when the
group is empty, when the raw value of our_index is at least the group length,
or when our_index does not occur in the group. -/
def DirectInGroup.new (group_validators : List ValidatorIndex)
    (our_index : ValidatorIndex) (seconding_limit : Nat) :
    Option DirectInGroup :=
  if group_validators.isEmpty then none
  else if group_validators.length ≤ our_index.val then none
  else
    match index_in_group group_validators our_index with
    | none => none
    | some our =>
      let incoming_size :=
        (group_validators.length - 1) * group_validators.length * seconding_limit
      let accepted_size := group_validators.length * seconding_limit
      some
        { validators := group_validators
          our_index := our
          seconding_limit := seconding_limit
          incoming := List.replicate incoming_size none
          accepted := List.replicate accepted_size none }

/-- Outcome of scanning one row of slots for a candidate hash. -/
inductive SlotScan
  | dup
  | emptyAt (i : Nat)
  | full
deriving DecidableEq

/-- Scan of the slots base, base+1, ..., base+fuel-1 of v, mirroring the loop
bodies of handle_incoming_seconded and handle_accepted_incoming: a slot equal
to some h stops the scan (dup), otherwise the first empty slot is reported,
otherwise the row is full. -/
def scanSlots (v : List (Option CandidateHash)) (h : CandidateHash) :
    Nat → Nat → SlotScan
  | _, 0 => .full
  | base, fuel + 1 =>
    match v.getD base none with
    | some c => if c = h then .dup else scanSlots v h (base + 1) fuel
    | none => .emptyAt base

/-- Compaction of a group position into the sender dimension of the incoming
matrix, skipping our own position. -/
def DirectInGroup.adjust_for_skipped_self (t : DirectInGroup) (index : Nat) :
    Nat :=
  if t.our_index < index then index - 1 else index

/-- Slot range of the incoming matrix consulted for a (sender, originator)
pair of group positions, as the half-open interval of the source. -/
def DirectInGroup.incoming_range (t : DirectInGroup)
    (sender originator : Nat) : Nat × Nat :=
  let sender := t.adjust_for_skipped_self sender
  let base := sender * (t.validators.length - 1) +
    originator * t.seconding_limit
  (base, base + t.seconding_limit)

/-- Slot range of the accepted matrix for an originator group position. -/
def DirectInGroup.accepted_range (t : DirectInGroup) (originator : Nat) :
    Nat × Nat :=
  let base := originator * t.seconding_limit
  (base, base + t.seconding_limit)

/-- Acceptance pass over the originator's accepted row. -/
def DirectInGroup.handle_accepted_incoming (t : DirectInGroup)
    (originator : Nat) (candidate_hash : CandidateHash) :
    Except RejectIncoming AcceptIncoming × DirectInGroup :=
  let r := t.accepted_range originator
  match scanSlots t.accepted candidate_hash r.1 (r.2 - r.1) with
  | .dup => (.ok .YesKnown, t)
  | .emptyAt i =>
    (.ok .YesUnknown, { t with accepted := t.accepted.set i (some candidate_hash) })
  | .full => (.error .OriginatorExcess, t)

/-- Admission of an incoming Seconded statement.  Mirrors the source exactly,
including the second lookup resolving originator_index from sender. -/
def DirectInGroup.handle_incoming_seconded (t : DirectInGroup)
    (sender originator : ValidatorIndex) (candidate_hash : CandidateHash) :
    Except RejectIncoming AcceptIncoming × DirectInGroup :=
  match index_in_group t.validators sender with
  | none => (.error .NotInGroup, t)
  | some sender_index =>
    match index_in_group t.validators sender with
    | none => (.error .NotInGroup, t)
    | some originator_index =>
      if sender_index = t.our_index ∨ originator_index = t.our_index then
        (.error .NotInGroup, t)
      else
        let r := t.incoming_range sender_index originator_index
        match scanSlots t.incoming candidate_hash r.1 (r.2 - r.1) with
        | .dup => (.error .PeerExcess, t)
        | .emptyAt i =>
          ({ t with incoming := t.incoming.set i (some candidate_hash)
            }).handle_accepted_incoming originator_index candidate_hash
        | .full => (.error .PeerExcess, t)

/-- Sequential submission of a list of candidate hashes for one fixed
(sender, originator) pair, collecting the verdicts and the final state. -/
def runSeconded (t : DirectInGroup) (sender originator : ValidatorIndex) :
    List CandidateHash →
      List (Except RejectIncoming AcceptIncoming) × DirectInGroup
  | [] => ([], t)
  | h :: hs =>
    let step := t.handle_incoming_seconded sender originator h
    let rest := runSeconded step.2 sender originator hs
    (step.1 :: rest.1, rest.2)

/-- Sequential application of arbitrary admission calls, discarding verdicts. -/
def applyCalls (t : DirectInGroup) :
    List (ValidatorIndex × ValidatorIndex × CandidateHash) → DirectInGroup
  | [] => t
  | c :: cs => applyCalls (t.handle_incoming_seconded c.1 c.2.1 c.2.2).2 cs

/-- Well-formedness of a tracker state: the shape every tracker produced by
the constructor has, and which admission calls preserve. -/
def Wf (t : DirectInGroup) : Prop :=
  t.validators ≠ [] ∧
  t.our_index < t.validators.length ∧
  t.incoming.length =
    (t.validators.length - 1) * t.validators.length * t.seconding_limit ∧
  t.accepted.length = t.validators.length * t.seconding_limit

/-- Sequential application of arbitrary admission calls, collecting the
verdicts and the final state. -/
def runCalls (t : DirectInGroup) :
    List (ValidatorIndex × ValidatorIndex × CandidateHash) →
      List (Except RejectIncoming AcceptIncoming) × DirectInGroup
  | [] => ([], t)
  | c :: cs =>
    let step := t.handle_incoming_seconded c.1 c.2.1 c.2.2
    let rest := runCalls step.2 cs
    (step.1 :: rest.1, rest.2)

/-- Construction followed by a sequence of admission calls, returning the
verdict list and the final state when construction succeeds. -/
def runCallsFromNew (group : List ValidatorIndex) (own : ValidatorIndex)
    (limit : Nat) (calls : List (ValidatorIndex × ValidatorIndex × CandidateHash)) :
    Option (List (Except RejectIncoming AcceptIncoming) × DirectInGroup) :=
  (DirectInGroup.new group own limit).map (fun t => runCalls t calls)

/-- Tracker state reached from the fresh three-validator tracker (group
positions 0, 1, 2, own position 0, seconding limit 1) after the single call
with sender and originator both the validator at position 1 and hash 11. -/
def c2State : DirectInGroup :=
  ⟨[⟨0⟩, ⟨1⟩, ⟨2⟩], 0, 1,
    [none, some 11, none, none, none, none],
    [none, some 11, none]⟩

/-- Presence of a candidate hash in the incoming row that the tracker
consults for a sender resolving to group position si, together with the fact
that no earlier slot of that row is empty (which is how every write leaves
the row, since rows fill left to right). -/
def RowHolds (t : DirectInGroup) (si : Nat) (h : CandidateHash) : Prop :=
  ∃ j, j < t.seconding_limit ∧
    t.incoming.getD ((t.incoming_range si si).1 + j) none = some h ∧
    ∀ m, m < j → t.incoming.getD ((t.incoming_range si si).1 + m) none ≠ none

/-- Base slot of the incoming row that an admission call from a sender at
group position si consults, expressed through the group configuration. -/
def ibaseOf (g : List ValidatorIndex) (our L si : Nat) : Nat :=
  (if our < si then si - 1 else si) * (g.length - 1) + si * L

/-- Base slot of the accepted row for group position si. -/
def abaseOf (L si : Nat) : Nat := si * L

/-- Invariant tying a tracker state to the list of candidate hashes already
admitted for the fixed sender at group position si, starting from a fresh
tracker: the configuration is fixed, both rows hold exactly the admitted
hashes in order, and the remainder of both rows is empty. -/
def RowInv (g : List ValidatorIndex) (our L si : Nat)
    (done : List CandidateHash) (t : DirectInGroup) : Prop :=
  t.validators = g ∧ t.our_index = our ∧ t.seconding_limit = L ∧
  t.incoming.length = (g.length - 1) * g.length * L ∧
  t.accepted.length = g.length * L ∧
  (∀ m c, done[m]? = some c →
    t.incoming.getD (ibaseOf g our L si + m) none = some c) ∧
  (∀ m, done.length ≤ m → m < L →
    t.incoming.getD (ibaseOf g our L si + m) none = none) ∧
  (∀ m c, done[m]? = some c →
    t.accepted.getD (abaseOf L si + m) none = some c) ∧
  (∀ m, done.length ≤ m → m < L →
    t.accepted.getD (abaseOf L si + m) none = none)

/-- C3: The originator argument of handle_incoming_seconded has no influence
on the verdict or on the post-state: calls differing only in the originator
argument produce identical results (noninterference of the originator input).
This holds because the source resolves the originator position by looking up
the sender a second time, leaving the originator argument unused. -/
theorem c3_originator_noninterference (t : DirectInGroup)
    (sender o1 o2 : ValidatorIndex) (h : CandidateHash) :
    t.handle_incoming_seconded sender o1 h =
      t.handle_incoming_seconded sender o2 h := rfl

/-- C1 evaluation: for the two-validator tracker with own position 0 and
limit 1, a call whose originator argument does not resolve into the group
is nevertheless accepted as YesUnknown and both matrices are written,
contradicting the claimed Reject NotInGroup with no mutation.  The second
conjunct shows the originator really fails to resolve. -/
theorem c1_code_eval :
    runCallsFromNew [⟨0⟩, ⟨1⟩] ⟨0⟩ 1 [(⟨1⟩, ⟨7⟩, 5)] =
      some ([.ok .YesUnknown],
        ⟨[⟨0⟩, ⟨1⟩], 0, 1, [none, some 5], [none, some 5]⟩) ∧
    index_in_group [⟨0⟩, ⟨1⟩] ⟨7⟩ = none := by decide

/-- C2 evaluation: from the fresh three-validator tracker with limit 1, one
call fills the accepted row of the originator at position 1 with hash 11
(the reachable state c2State); a further call from the distinct in-group
non-self sender at position 2 for that same originator with the fresh hash
22 is then accepted as YesUnknown instead of the claimed OriginatorExcess.
The conjuncts exhibit the claim's hypotheses: the originator resolves to
position 1, its one-slot accepted row is full with 11 (so 22 is not in it),
and the sender's incoming row for this originator (slot 3) is still empty. -/
theorem c2_code_eval :
    runCallsFromNew [⟨0⟩, ⟨1⟩, ⟨2⟩] ⟨0⟩ 1 [(⟨1⟩, ⟨1⟩, 11)] =
      some ([.ok .YesUnknown], c2State) ∧
    index_in_group c2State.validators ⟨1⟩ = some 1 ∧
    c2State.accepted.getD 1 none = some 11 ∧
    c2State.incoming.getD 3 none = none ∧
    c2State.handle_incoming_seconded ⟨2⟩ ⟨1⟩ 22 =
      (.ok .YesUnknown,
        ⟨[⟨0⟩, ⟨1⟩, ⟨2⟩], 0, 1,
          [none, some 11, none, none, some 22, none],
          [none, some 11, some 22]⟩) := by decide

/-- C4 evaluation: the four-call scenario of the spec (group of four
validators, own position 0, limit 1) produces YesUnknown, PeerExcess,
YesUnknown, YesUnknown; the third verdict differs from the claimed
OriginatorExcess. -/
theorem c4_scenario_eval :
    Option.map Prod.fst
        (runCallsFromNew [⟨0⟩, ⟨1⟩, ⟨2⟩, ⟨3⟩] ⟨0⟩ 1
          [(⟨1⟩, ⟨2⟩, 101), (⟨1⟩, ⟨2⟩, 101), (⟨3⟩, ⟨2⟩, 102), (⟨2⟩, ⟨1⟩, 103)]) =
    some [.ok .YesUnknown, .error .PeerExcess, .ok .YesUnknown,
      .ok .YesUnknown] := by decide

/-- C5 counterexample: a non-empty group containing the own identity for
which construction nevertheless fails, because the raw numeric value of the
own identity is not less than the group length. -/
theorem c5_counterexample :
    ([⟨5⟩] : List ValidatorIndex) ≠ [] ∧
    (⟨5⟩ : ValidatorIndex) ∈ [(⟨5⟩ : ValidatorIndex)] ∧
    DirectInGroup.new [⟨5⟩] ⟨5⟩ 1 = none := by decide

theorem index_in_group_isSome_iff (g : List ValidatorIndex) (x : ValidatorIndex) :
    (index_in_group g x).isSome = true ↔ x ∈ g := by
  induction g with
  | nil => simp [index_in_group]
  | cons v rest ih =>
    by_cases hv : v = x
    · simp [index_in_group, hv]
    · simp [index_in_group, hv, ih, List.mem_cons]
      intro hx
      exact absurd hx.symm hv

theorem index_in_group_lt_length (g : List ValidatorIndex) (x : ValidatorIndex)
    (i : Nat) (hi : index_in_group g x = some i) : i < g.length := by
  induction g generalizing i with
  | nil => simp [index_in_group] at hi
  | cons v rest ih =>
    by_cases hv : v = x
    · simp [index_in_group, hv] at hi
      simp [List.length_cons]
      omega
    · simp [index_in_group, hv] at hi
      obtain ⟨j, hj, rfl⟩ := hi
      have := ih j hj
      simp
      omega

/-- C5 (amended): construction succeeds if and only if the group list is
non-empty, the raw numeric value of the own identity is strictly less than
the group length, and the own identity occurs in the group list; every
violating input deterministically yields the failure value. -/
theorem c5_amended_construction_iff (g : List ValidatorIndex)
    (own : ValidatorIndex) (L : Nat) :
    (DirectInGroup.new g own L).isSome = true ↔
      g ≠ [] ∧ own.val < g.length ∧ own ∈ g := by
  unfold DirectInGroup.new
  split_ifs with h1 h2
  · simp_all [List.isEmpty_iff]
  · simp only [Option.isSome_none, Bool.false_eq_true, false_iff]
    rintro ⟨-, hlt, -⟩
    omega
  · rcases hidx : index_in_group g own with _ | our
    · have := index_in_group_isSome_iff g own
      rw [hidx] at this
      simp only [Option.isSome_none, Bool.false_eq_true, false_iff] at this ⊢
      rintro ⟨-, -, hmem⟩
      exact this hmem
    · have hmem := (index_in_group_isSome_iff g own).mp (by rw [hidx]; rfl)
      have hne : g ≠ [] := by rintro rfl; simp at hmem
      simp only [Option.isSome_some, true_iff]
      exact ⟨hne, by omega, hmem⟩

theorem getD_set_ne (v : List (Option CandidateHash)) (p q : Nat)
    (a : Option CandidateHash) (hpq : p ≠ q) :
    (v.set p a).getD q none = v.getD q none := by
  simp [List.getD_eq_getElem?_getD, List.getElem?_set_ne hpq]

theorem getD_set_self (v : List (Option CandidateHash)) (p : Nat)
    (a : Option CandidateHash) (hp : p < v.length) :
    (v.set p a).getD p none = a := by
  simp [List.getD_eq_getElem?_getD, List.getElem?_set_self hp]

theorem getD_replicate (n q : Nat) :
    (List.replicate n (none : Option CandidateHash)).getD q none = none := by
  simp only [List.getD_eq_getElem?_getD, List.getElem?_replicate]
  split <;> rfl

theorem scanSlots_eq_dup (v : List (Option CandidateHash)) (h : CandidateHash)
    (base fuel j : Nat) (hj : j < fuel)
    (hbefore : ∀ m, m < j → v.getD (base + m) none ≠ none)
    (hat : v.getD (base + j) none = some h) :
    scanSlots v h base fuel = .dup := by
  induction fuel generalizing base j with
  | zero => omega
  | succ f ih =>
    rw [scanSlots]
    rcases j with _ | j
    · rw [Nat.add_zero] at hat
      rw [hat]
      simp
    · have h0 := hbefore 0 (by omega)
      rw [Nat.add_zero] at h0
      rcases hb : v.getD base none with _ | c
      · exact absurd hb h0
      · simp only []
        by_cases hc : c = h
        · simp [hc]
        · simp only [hc, if_false]
          refine ih (base + 1) j (by omega) ?_ ?_
          · intro m hm
            have := hbefore (m + 1) (by omega)
            have harr : base + (m + 1) = base + 1 + m := by omega
            rwa [harr] at this
          · have harr : base + (j + 1) = base + 1 + j := by omega
            rwa [harr] at hat

theorem scanSlots_eq_emptyAt (v : List (Option CandidateHash))
    (h : CandidateHash) (base fuel j : Nat) (hj : j < fuel)
    (hbefore : ∀ m, m < j →
      ∃ c, v.getD (base + m) none = some c ∧ c ≠ h)
    (hat : v.getD (base + j) none = none) :
    scanSlots v h base fuel = .emptyAt (base + j) := by
  induction fuel generalizing base j with
  | zero => omega
  | succ f ih =>
    rw [scanSlots]
    rcases j with _ | j
    · rw [Nat.add_zero] at hat
      rw [hat]
      simp
    · obtain ⟨c, hc, hch⟩ := hbefore 0 (by omega)
      rw [Nat.add_zero] at hc
      rw [hc]
      simp only [hch, if_false]
      have harr : base + (j + 1) = base + 1 + j := by omega
      rw [harr]
      refine ih (base + 1) j (by omega) ?_ ?_
      · intro m hm
        obtain ⟨d, hd, hdh⟩ := hbefore (m + 1) (by omega)
        have harr2 : base + (m + 1) = base + 1 + m := by omega
        rw [harr2] at hd
        exact ⟨d, hd, hdh⟩
      · rwa [← harr]

theorem scanSlots_eq_full (v : List (Option CandidateHash))
    (h : CandidateHash) (base fuel : Nat)
    (hall : ∀ m, m < fuel →
      ∃ c, v.getD (base + m) none = some c ∧ c ≠ h) :
    scanSlots v h base fuel = .full := by
  induction fuel generalizing base with
  | zero => rw [scanSlots]
  | succ f ih =>
    rw [scanSlots]
    obtain ⟨c, hc, hch⟩ := hall 0 (by omega)
    rw [Nat.add_zero] at hc
    rw [hc]
    simp only [hch, if_false]
    refine ih (base + 1) ?_
    intro m hm
    obtain ⟨d, hd, hdh⟩ := hall (m + 1) (by omega)
    have harr : base + (m + 1) = base + 1 + m := by omega
    rw [harr] at hd
    exact ⟨d, hd, hdh⟩

theorem scanSlots_emptyAt_inv (v : List (Option CandidateHash))
    (h : CandidateHash) (base fuel i : Nat)
    (he : scanSlots v h base fuel = .emptyAt i) :
    ∃ j, j < fuel ∧ i = base + j ∧ v.getD i none = none ∧
      ∀ m, m < j → ∃ c, v.getD (base + m) none = some c ∧ c ≠ h := by
  induction fuel generalizing base with
  | zero => rw [scanSlots] at he; exact absurd he (by simp)
  | succ f ih =>
    rw [scanSlots] at he
    rcases hb : v.getD base none with _ | c
    · rw [hb] at he
      simp only [SlotScan.emptyAt.injEq] at he
      exact ⟨0, by omega, by omega, by rwa [he] at hb, by omega⟩
    · rw [hb] at he
      by_cases hc : c = h
      · simp [hc] at he
      · simp only [hc, if_false] at he
        obtain ⟨j, hj, hij, hnone, hbefore⟩ := ih (base + 1) he
        refine ⟨j + 1, by omega, by omega, hnone, ?_⟩
        intro m hm
        rcases m with _ | m
        · exact ⟨c, by rwa [Nat.add_zero], hc⟩
        · obtain ⟨d, hd, hdh⟩ := hbefore m (by omega)
          have harr : base + (m + 1) = base + 1 + m := by omega
          rw [harr]
          exact ⟨d, hd, hdh⟩



theorem handle_shape (t : DirectInGroup) (s o : ValidatorIndex)
    (h : CandidateHash) :
    (t.handle_incoming_seconded s o h).2 = t ∨
    (∃ i, t.incoming.getD i none = none ∧
      (t.handle_incoming_seconded s o h).2 =
        { t with incoming := t.incoming.set i (some h) }) ∨
    (∃ i i2, t.incoming.getD i none = none ∧ t.accepted.getD i2 none = none ∧
      (t.handle_incoming_seconded s o h).2 =
        { t with incoming := t.incoming.set i (some h),
                 accepted := t.accepted.set i2 (some h) }) := by
  unfold DirectInGroup.handle_incoming_seconded
  rcases h1 : index_in_group t.validators s with _ | si
  · simp only [h1]
    exact Or.inl trivial
  · simp only [h1]
    by_cases h2 : si = t.our_index ∨ si = t.our_index
    · simp only [if_pos h2]
      exact Or.inl trivial
    · simp only [if_neg h2]
      rcases h3 : scanSlots t.incoming h (t.incoming_range si si).1
          ((t.incoming_range si si).2 - (t.incoming_range si si).1) with _ | i
      · simp only [h3]
        exact Or.inl trivial
      · simp only [h3]
        obtain ⟨j, hj, hij, hnone, -⟩ := scanSlots_emptyAt_inv _ _ _ _ _ h3
        unfold DirectInGroup.handle_accepted_incoming
        rcases h4 : scanSlots t.accepted h
            (({ t with incoming := t.incoming.set i (some h) }).accepted_range si).1
            ((({ t with incoming := t.incoming.set i (some h) }).accepted_range si).2 -
              (({ t with incoming := t.incoming.set i (some h) }).accepted_range si).1)
            with _ | i2
        · simp only [h4]
          exact Or.inr (Or.inl ⟨i, hnone, rfl⟩)
        · simp only [h4]
          obtain ⟨j2, hj2, hij2, hnone2, -⟩ := scanSlots_emptyAt_inv _ _ _ _ _ h4
          exact Or.inr (Or.inr ⟨i, i2, hnone, hnone2, rfl⟩)
        · simp only [h4]
          exact Or.inr (Or.inl ⟨i, hnone, rfl⟩)
      · simp only [h3]
        exact Or.inl trivial

theorem handle_config (t : DirectInGroup) (s o : ValidatorIndex)
    (h : CandidateHash) :
    (t.handle_incoming_seconded s o h).2.validators = t.validators ∧
    (t.handle_incoming_seconded s o h).2.our_index = t.our_index ∧
    (t.handle_incoming_seconded s o h).2.seconding_limit = t.seconding_limit := by
  rcases handle_shape t s o h with hs | ⟨i, -, hs⟩ | ⟨i, i2, -, -, hs⟩ <;>
    rw [hs] <;> exact ⟨rfl, rfl, rfl⟩

theorem handle_lengths (t : DirectInGroup) (s o : ValidatorIndex)
    (h : CandidateHash) :
    (t.handle_incoming_seconded s o h).2.incoming.length = t.incoming.length ∧
    (t.handle_incoming_seconded s o h).2.accepted.length = t.accepted.length := by
  rcases handle_shape t s o h with hs | ⟨i, -, hs⟩ | ⟨i, i2, -, -, hs⟩ <;>
    rw [hs] <;> exact ⟨by simp [List.length_set], by simp [List.length_set]⟩

theorem handle_incoming_mono (t : DirectInGroup) (s o : ValidatorIndex)
    (h : CandidateHash) (i : Nat) (c : CandidateHash)
    (hc : t.incoming.getD i none = some c) :
    (t.handle_incoming_seconded s o h).2.incoming.getD i none = some c := by
  rcases handle_shape t s o h with hs | ⟨p, hp, hs⟩ | ⟨p, p2, hp, hp2, hs⟩ <;> rw [hs]
  · exact hc
  · have hne : p ≠ i := by
      intro he
      rw [he, hc] at hp
      exact Option.noConfusion hp
    rw [getD_set_ne _ _ _ _ hne]
    exact hc
  · have hne : p ≠ i := by
      intro he
      rw [he, hc] at hp
      exact Option.noConfusion hp
    rw [getD_set_ne _ _ _ _ hne]
    exact hc

theorem handle_accepted_mono (t : DirectInGroup) (s o : ValidatorIndex)
    (h : CandidateHash) (i : Nat) (c : CandidateHash)
    (hc : t.accepted.getD i none = some c) :
    (t.handle_incoming_seconded s o h).2.accepted.getD i none = some c := by
  rcases handle_shape t s o h with hs | ⟨p, hp, hs⟩ | ⟨p, p2, hp, hp2, hs⟩ <;> rw [hs]
  · exact hc
  · exact hc
  · have hne : p2 ≠ i := by
      intro he
      rw [he, hc] at hp2
      exact Option.noConfusion hp2
    rw [getD_set_ne _ _ _ _ hne]
    exact hc

theorem new_inv (g : List ValidatorIndex) (own : ValidatorIndex) (L : Nat)
    (t : DirectInGroup) (hn : DirectInGroup.new g own L = some t) :
    t.validators = g ∧ t.our_index < g.length ∧ t.seconding_limit = L ∧
    index_in_group g own = some t.our_index ∧
    t.incoming = List.replicate ((g.length - 1) * g.length * L) none ∧
    t.accepted = List.replicate (g.length * L) none := by
  unfold DirectInGroup.new at hn
  split_ifs at hn with h1 h2
  rcases hidx : index_in_group g own with _ | our
  · rw [hidx] at hn
    exact Option.noConfusion hn
  · rw [hidx] at hn
    simp only [Option.some.injEq] at hn
    have hlt := index_in_group_lt_length g own our hidx
    rw [← hn]
    exact ⟨rfl, hlt, rfl, rfl, rfl, rfl⟩

theorem new_wf (g : List ValidatorIndex) (own : ValidatorIndex) (L : Nat)
    (t : DirectInGroup) (hn : DirectInGroup.new g own L = some t) : Wf t := by
  obtain ⟨hv, hour, hL, -, hinc, hacc⟩ := new_inv g own L t hn
  refine ⟨?_, ?_, ?_, ?_⟩
  · rw [hv]
    intro he
    rw [he] at hour
    simp at hour
  · rwa [hv]
  · rw [hinc, hv, hL, List.length_replicate]
  · rw [hacc, hv, hL, List.length_replicate]

theorem handle_wf (t : DirectInGroup) (s o : ValidatorIndex) (h : CandidateHash)
    (hw : Wf t) : Wf ((t.handle_incoming_seconded s o h).2) := by
  obtain ⟨h1, h2, h3, h4⟩ := hw
  obtain ⟨hv, ho, hL⟩ := handle_config t s o h
  obtain ⟨hil, hal⟩ := handle_lengths t s o h
  exact ⟨by rwa [hv], by rwa [hv, ho], by rwa [hv, hL, hil], by rwa [hv, hL, hal]⟩

theorem incoming_range_bound (t : DirectInGroup) (si : Nat) (hw : Wf t)
    (hsi : si < t.validators.length) (hne : si ≠ t.our_index) (i : Nat)
    (hlo : (t.incoming_range si si).1 ≤ i) (hhi : i < (t.incoming_range si si).2) :
    i < t.incoming.length := by
  obtain ⟨-, hour, hlen, -⟩ := hw
  unfold DirectInGroup.incoming_range DirectInGroup.adjust_for_skipped_self
      at hlo hhi
  simp only [] at hlo hhi
  rw [hlen]
  set G := t.validators.length with hG
  set L := t.seconding_limit with hL
  have hG2 : 2 ≤ G := by
    rcases Nat.lt_or_ge si t.our_index with hlt | hge
    · omega
    · omega
  have hL1 : 1 ≤ L := by
    by_contra hc
    have : L = 0 := by omega
    rw [this] at hhi
    omega
  have hadj : (if t.our_index < si then si - 1 else si) ≤ G - 2 := by
    split_ifs with hcase
    · omega
    · omega
  have h1 : (if t.our_index < si then si - 1 else si) * (G - 1) ≤
      (G - 2) * (G - 1) := Nat.mul_le_mul_right _ hadj
  have h2 : si * L + L ≤ G * L := by
    have hs1 : si + 1 ≤ G := by omega
    calc si * L + L = (si + 1) * L := by rw [Nat.succ_mul]
    _ ≤ G * L := Nat.mul_le_mul_right _ hs1
  have h3 : (G - 2) * (G - 1) + G * L ≤ (G - 1) * G * L := by
    have hg1 : G - 1 ≤ G * L :=
      le_trans (by omega) (Nat.le_mul_of_pos_right G hL1)
    have hmul : (G - 2) * (G - 1) ≤ (G - 2) * (G * L) :=
      Nat.mul_le_mul_left _ hg1
    have hsplit : (G - 1) * (G * L) = (G - 2) * (G * L) + G * L := by
      have : G - 1 = (G - 2) + 1 := by omega
      rw [this, Nat.succ_mul]
    rw [Nat.mul_assoc, hsplit]
    omega
  have hfin : i < (if t.our_index < si then si - 1 else si) * (G - 1) +
      si * L + L := by omega
  calc i < (if t.our_index < si then si - 1 else si) * (G - 1) + si * L + L :=
      hfin
  _ ≤ (G - 2) * (G - 1) + (si * L + L) := by omega
  _ ≤ (G - 2) * (G - 1) + G * L := by omega
  _ ≤ (G - 1) * G * L := h3

theorem accepted_range_bound (t : DirectInGroup) (si : Nat) (hw : Wf t)
    (hsi : si < t.validators.length) (i : Nat)
    (hlo : (t.accepted_range si).1 ≤ i) (hhi : i < (t.accepted_range si).2) :
    i < t.accepted.length := by
  obtain ⟨-, -, -, hlen⟩ := hw
  unfold DirectInGroup.accepted_range at hlo hhi
  simp only [] at hlo hhi
  rw [hlen]
  have hs1 : si + 1 ≤ t.validators.length := by omega
  have : (si + 1) * t.seconding_limit ≤
      t.validators.length * t.seconding_limit :=
    Nat.mul_le_mul_right _ hs1
  rw [Nat.succ_mul] at this
  omega

theorem applyCalls_wf (t : DirectInGroup)
    (cs : List (ValidatorIndex × ValidatorIndex × CandidateHash))
    (hw : Wf t) : Wf (applyCalls t cs) := by
  induction cs generalizing t with
  | nil => exact hw
  | cons c cs ih => exact ih _ (handle_wf _ _ _ _ hw)

theorem applyCalls_config (t : DirectInGroup)
    (cs : List (ValidatorIndex × ValidatorIndex × CandidateHash)) :
    (applyCalls t cs).validators = t.validators ∧
    (applyCalls t cs).our_index = t.our_index ∧
    (applyCalls t cs).seconding_limit = t.seconding_limit := by
  induction cs generalizing t with
  | nil => exact ⟨rfl, rfl, rfl⟩
  | cons c cs ih =>
    obtain ⟨h1, h2, h3⟩ := ih (t.handle_incoming_seconded c.1 c.2.1 c.2.2).2
    obtain ⟨g1, g2, g3⟩ := handle_config t c.1 c.2.1 c.2.2
    exact ⟨by rw [applyCalls, h1, g1], by rw [applyCalls, h2, g2],
      by rw [applyCalls, h3, g3]⟩

/-- C9: Both matrices keep exactly the capacity fixed at construction, namely
(G-1) times G times L incoming slots and G times L accepted slots, and every
admission call preserves both lengths and every already-recorded slot value:
no recorded slot is ever evicted, overwritten or cleared. -/
theorem c9_fixed_shape_and_permanence :
    (∀ g own L t, DirectInGroup.new g own L = some t →
      t.incoming.length = (g.length - 1) * g.length * L ∧
      t.accepted.length = g.length * L) ∧
    (∀ (t : DirectInGroup) (s o : ValidatorIndex) (h : CandidateHash),
      ((t.handle_incoming_seconded s o h).2.incoming.length =
        t.incoming.length) ∧
      ((t.handle_incoming_seconded s o h).2.accepted.length =
        t.accepted.length) ∧
      (∀ i c, t.incoming.getD i none = some c →
        (t.handle_incoming_seconded s o h).2.incoming.getD i none = some c) ∧
      (∀ i c, t.accepted.getD i none = some c →
        (t.handle_incoming_seconded s o h).2.accepted.getD i none = some c)) := by
  constructor
  · intro g own L t hn
    obtain ⟨-, -, -, -, hinc, hacc⟩ := new_inv g own L t hn
    rw [hinc, hacc]
    exact ⟨List.length_replicate _ _, List.length_replicate _ _⟩
  · intro t s o h
    obtain ⟨h1, h2⟩ := handle_lengths t s o h
    exact ⟨h1, h2, fun i c hc => handle_incoming_mono t s o h i c hc,
      fun i c hc => handle_accepted_mono t s o h i c hc⟩

theorem c9_witness :
    ((⟨[⟨0⟩, ⟨1⟩], 0, 1, [none, none], [none, none]⟩ :
        DirectInGroup).incoming.length = (2 - 1) * 2 * 1) ∧
    ((c2State.handle_incoming_seconded ⟨2⟩ ⟨1⟩ 22).2.incoming.getD 1 none =
      some 11) := by
  constructor
  · exact (c9_fixed_shape_and_permanence.1 [⟨0⟩, ⟨1⟩] ⟨0⟩ 1 _ (by decide)).1
  · exact (c9_fixed_shape_and_permanence.2 c2State ⟨2⟩ ⟨1⟩ 22).2.2.1 1 11
      (by decide)

/-- C10: Totality and absence of out-of-bounds accesses: for every tracker
reachable from a successful construction by any sequence of admission calls,
and every call whose sender resolves to an in-group non-self position (the
only case in which the source indexes the matrices; the resolved originator
position coincides with the sender position), every index of the incoming
range and of the accepted range consulted by the call lies strictly within
the corresponding matrix, so in the embedding (total by construction) every
access agrees with the panicking Rust indexing and the call returns an
ordinary verdict. -/
theorem c10_ranges_in_bounds (g : List ValidatorIndex) (own : ValidatorIndex)
    (L : Nat) (t0 : DirectInGroup)
    (cs : List (ValidatorIndex × ValidatorIndex × CandidateHash))
    (s : ValidatorIndex) (si : Nat)
    (hn : DirectInGroup.new g own L = some t0)
    (hsi : index_in_group (applyCalls t0 cs).validators s = some si)
    (hne : si ≠ (applyCalls t0 cs).our_index) :
    (∀ i, ((applyCalls t0 cs).incoming_range si si).1 ≤ i →
      i < ((applyCalls t0 cs).incoming_range si si).2 →
      i < (applyCalls t0 cs).incoming.length) ∧
    (∀ i, ((applyCalls t0 cs).accepted_range si).1 ≤ i →
      i < ((applyCalls t0 cs).accepted_range si).2 →
      i < (applyCalls t0 cs).accepted.length) := by
  have hw : Wf (applyCalls t0 cs) := applyCalls_wf t0 cs (new_wf g own L t0 hn)
  have hlt : si < (applyCalls t0 cs).validators.length :=
    index_in_group_lt_length _ s si hsi
  exact ⟨fun i hlo hhi => incoming_range_bound _ si hw hlt hne i hlo hhi,
    fun i hlo hhi => accepted_range_bound _ si hw hlt i hlo hhi⟩

theorem c10_witness :
    (∀ i, ((applyCalls ⟨[⟨0⟩, ⟨1⟩], 0, 1, [none, none], [none, none]⟩
        []).incoming_range 1 1).1 ≤ i →
      i < ((applyCalls ⟨[⟨0⟩, ⟨1⟩], 0, 1, [none, none], [none, none]⟩
        []).incoming_range 1 1).2 →
      i < (applyCalls ⟨[⟨0⟩, ⟨1⟩], 0, 1, [none, none], [none, none]⟩
        []).incoming.length) ∧
    (∀ i, ((applyCalls ⟨[⟨0⟩, ⟨1⟩], 0, 1, [none, none], [none, none]⟩
        []).accepted_range 1).1 ≤ i →
      i < ((applyCalls ⟨[⟨0⟩, ⟨1⟩], 0, 1, [none, none], [none, none]⟩
        []).accepted_range 1).2 →
      i < (applyCalls ⟨[⟨0⟩, ⟨1⟩], 0, 1, [none, none], [none, none]⟩
        []).accepted.length) :=
  c10_ranges_in_bounds [⟨0⟩, ⟨1⟩] ⟨0⟩ 1 _ [] ⟨1⟩ 1 (by decide) (by decide)
    (by decide)

theorem incoming_range_span (t : DirectInGroup) (s o : Nat) :
    (t.incoming_range s o).2 - (t.incoming_range s o).1 = t.seconding_limit := by
  unfold DirectInGroup.incoming_range
  simp

theorem accepted_range_span (t : DirectInGroup) (o : Nat) :
    (t.accepted_range o).2 - (t.accepted_range o).1 = t.seconding_limit := by
  unfold DirectInGroup.accepted_range
  simp

/-- C8: Whenever an admission call writes the candidate hash into an empty
incoming-row slot and then rejects with OriginatorExcess in the acceptance
pass, the incoming write is permanent: the post-state incoming matrix is the
pre-state matrix with exactly that one empty slot set to the hash, and the
slot still holds the hash afterwards. -/
theorem c8_originator_excess_write_persists (t : DirectInGroup)
    (s o : ValidatorIndex) (h : CandidateHash) (t' : DirectInGroup)
    (hw : Wf t)
    (hcall : t.handle_incoming_seconded s o h =
      (.error .OriginatorExcess, t')) :
    ∃ i, i < t.incoming.length ∧ t.incoming.getD i none = none ∧
      t'.incoming = t.incoming.set i (some h) ∧
      t'.incoming.getD i none = some h := by
  unfold DirectInGroup.handle_incoming_seconded at hcall
  rcases h1 : index_in_group t.validators s with _ | si
  · simp only [h1] at hcall
    simp at hcall
  · simp only [h1] at hcall
    by_cases h2 : si = t.our_index ∨ si = t.our_index
    · rw [if_pos h2] at hcall
      simp at hcall
    · rw [if_neg h2] at hcall
      rcases h3 : scanSlots t.incoming h (t.incoming_range si si).1
          ((t.incoming_range si si).2 - (t.incoming_range si si).1)
          with _ | i
      · simp only [h3] at hcall
        simp at hcall
      · simp only [h3] at hcall
        unfold DirectInGroup.handle_accepted_incoming at hcall
        rcases h4 : scanSlots
            ({ t with incoming := t.incoming.set i (some h) }).accepted h
            (({ t with incoming :=
              t.incoming.set i (some h) }).accepted_range si).1
            ((({ t with incoming :=
              t.incoming.set i (some h) }).accepted_range si).2 -
              (({ t with incoming :=
                t.incoming.set i (some h) }).accepted_range si).1)
            with _ | i2
        · simp only [h4] at hcall
          simp at hcall
        · simp only [h4] at hcall
          simp at hcall
        · simp only [h4] at hcall
          simp only [Prod.mk.injEq] at hcall
          obtain ⟨-, ht'⟩ := hcall
          obtain ⟨j, hj, hij, hnone, -⟩ := scanSlots_emptyAt_inv _ _ _ _ _ h3
          rw [incoming_range_span] at hj
          have hsilt : si < t.validators.length :=
            index_in_group_lt_length _ s si h1
          have hsine : si ≠ t.our_index := fun hc => h2 (Or.inl hc)
          have hibound : i < t.incoming.length := by
            refine incoming_range_bound t si hw hsilt hsine i (by omega) ?_
            have hspan := incoming_range_span t si si
            omega
          refine ⟨i, hibound, hnone, ?_, ?_⟩
          · rw [← ht']
          · rw [← ht']
            exact getD_set_self _ _ _ hibound
      · simp only [h3] at hcall
        simp at hcall

theorem c8_witness :
    ∃ i, i < ([none, none] : List (Option CandidateHash)).length ∧
      ([none, none] : List (Option CandidateHash)).getD i none = none ∧
      ([none, some 5] : List (Option CandidateHash)) =
        ([none, none] : List (Option CandidateHash)).set i (some 5) ∧
      ([none, some 5] : List (Option CandidateHash)).getD i none = some 5 :=
  c8_originator_excess_write_persists
    ⟨[⟨0⟩, ⟨1⟩], 0, 1, [none, none], [some 99, some 98]⟩ ⟨1⟩ ⟨1⟩ 5
    ⟨[⟨0⟩, ⟨1⟩], 0, 1, [none, some 5], [some 99, some 98]⟩
    (by unfold Wf; decide) (by decide)

theorem rowHolds_of_write (t : DirectInGroup) (si : Nat) (h : CandidateHash)
    (i : Nat)
    (hscan : scanSlots t.incoming h (t.incoming_range si si).1
      ((t.incoming_range si si).2 - (t.incoming_range si si).1) = .emptyAt i)
    (hibound : i < t.incoming.length) :
    RowHolds { t with incoming := t.incoming.set i (some h) } si h := by
  obtain ⟨j, hj, hij, hnone, hbefore⟩ := scanSlots_emptyAt_inv _ _ _ _ _ hscan
  rw [incoming_range_span] at hj
  refine ⟨j, hj, ?_, ?_⟩
  · show (t.incoming.set i (some h)).getD ((t.incoming_range si si).1 + j)
      none = some h
    rw [← hij]
    exact getD_set_self _ _ _ hibound
  · intro m hm
    show (t.incoming.set i (some h)).getD ((t.incoming_range si si).1 + m)
      none ≠ none
    obtain ⟨c, hc, -⟩ := hbefore m hm
    have hne : i ≠ (t.incoming_range si si).1 + m := by omega
    rw [getD_set_ne _ _ _ _ hne, hc]
    exact Option.noConfusion

theorem rowHolds_step (t : DirectInGroup) (si : Nat) (h : CandidateHash)
    (s' o' : ValidatorIndex) (h' : CandidateHash)
    (hr : RowHolds t si h) :
    RowHolds ((t.handle_incoming_seconded s' o' h').2) si h := by
  obtain ⟨j, hj, hat, hbefore⟩ := hr
  obtain ⟨hv, ho, hL⟩ := handle_config t s' o' h'
  have hrange : ((t.handle_incoming_seconded s' o' h').2).incoming_range si si =
      t.incoming_range si si := by
    unfold DirectInGroup.incoming_range DirectInGroup.adjust_for_skipped_self
    rw [hv, ho, hL]
  refine ⟨j, by rwa [hL], ?_, ?_⟩
  · rw [hrange]
    exact handle_incoming_mono t s' o' h' _ _ hat
  · intro m hm
    rw [hrange]
    have hb := hbefore m hm
    rcases hcm : t.incoming.getD ((t.incoming_range si si).1 + m) none
        with _ | c
    · exact absurd hcm hb
    · rw [handle_incoming_mono t s' o' h' _ _ hcm]
      exact Option.noConfusion

theorem rowHolds_applyCalls (t : DirectInGroup) (si : Nat) (h : CandidateHash)
    (cs : List (ValidatorIndex × ValidatorIndex × CandidateHash))
    (hr : RowHolds t si h) : RowHolds (applyCalls t cs) si h := by
  induction cs generalizing t with
  | nil => exact hr
  | cons c cs ih => exact ih _ (rowHolds_step _ _ _ _ _ _ hr)

theorem rowHolds_rejects (t : DirectInGroup) (s o : ValidatorIndex)
    (h : CandidateHash) (si : Nat)
    (hsi : index_in_group t.validators s = some si)
    (hne : si ≠ t.our_index)
    (hr : RowHolds t si h) :
    t.handle_incoming_seconded s o h = (.error .PeerExcess, t) := by
  obtain ⟨j, hj, hat, hbefore⟩ := hr
  unfold DirectInGroup.handle_incoming_seconded
  simp only [hsi]
  have hguard : ¬(si = t.our_index ∨ si = t.our_index) := by
    intro hc
    rcases hc with hc | hc <;> exact hne hc
  rw [if_neg hguard]
  have hscan : scanSlots t.incoming h (t.incoming_range si si).1
      ((t.incoming_range si si).2 - (t.incoming_range si si).1) = .dup := by
    refine scanSlots_eq_dup t.incoming h _ _ j ?_ hbefore hat
    rw [incoming_range_span]
    exact hj
  simp only [hscan]

theorem recorded_rowHolds (t : DirectInGroup) (s o : ValidatorIndex)
    (h : CandidateHash) (r : Except RejectIncoming AcceptIncoming)
    (t1 : DirectInGroup) (hw : Wf t)
    (hcall : t.handle_incoming_seconded s o h = (r, t1))
    (hr1 : r ≠ .error .NotInGroup) (hr2 : r ≠ .error .PeerExcess) :
    ∃ si, index_in_group t.validators s = some si ∧ si ≠ t.our_index ∧
      t1.validators = t.validators ∧ t1.our_index = t.our_index ∧
      RowHolds t1 si h := by
  unfold DirectInGroup.handle_incoming_seconded at hcall
  rcases h1 : index_in_group t.validators s with _ | si
  · simp only [h1] at hcall
    rw [Prod.mk.injEq] at hcall
    exact absurd hcall.1.symm hr1
  · simp only [h1] at hcall
    by_cases h2 : si = t.our_index ∨ si = t.our_index
    · rw [if_pos h2] at hcall
      rw [Prod.mk.injEq] at hcall
      exact absurd hcall.1.symm hr1
    · rw [if_neg h2] at hcall
      have hne : si ≠ t.our_index := fun hc => h2 (Or.inl hc)
      rcases h3 : scanSlots t.incoming h (t.incoming_range si si).1
          ((t.incoming_range si si).2 - (t.incoming_range si si).1)
          with _ | i
      · simp only [h3] at hcall
        rw [Prod.mk.injEq] at hcall
        exact absurd hcall.1.symm hr2
      · simp only [h3] at hcall
        have hibound : i < t.incoming.length := by
          obtain ⟨j, hj, hij, -, -⟩ := scanSlots_emptyAt_inv _ _ _ _ _ h3
          rw [incoming_range_span] at hj
          have hsilt : si < t.validators.length :=
            index_in_group_lt_length _ s si h1
          refine incoming_range_bound t si hw hsilt hne i (by omega) ?_
          have hspan := incoming_range_span t si si
          omega
        have hrow := rowHolds_of_write t si h i h3 hibound
        unfold DirectInGroup.handle_accepted_incoming at hcall
        rcases h4 : scanSlots
            ({ t with incoming := t.incoming.set i (some h) }).accepted h
            (({ t with incoming :=
              t.incoming.set i (some h) }).accepted_range si).1
            ((({ t with incoming :=
              t.incoming.set i (some h) }).accepted_range si).2 -
              (({ t with incoming :=
                t.incoming.set i (some h) }).accepted_range si).1)
            with _ | i2
        · simp only [h4] at hcall
          rw [Prod.mk.injEq] at hcall
          rw [← hcall.2]
          exact ⟨si, rfl, hne, rfl, rfl, hrow⟩
        · simp only [h4] at hcall
          rw [Prod.mk.injEq] at hcall
          rw [← hcall.2]
          exact ⟨si, rfl, hne, rfl, rfl, hrow⟩
        · simp only [h4] at hcall
          rw [Prod.mk.injEq] at hcall
          rw [← hcall.2]
          exact ⟨si, rfl, hne, rfl, rfl, hrow⟩
      · simp only [h3] at hcall
        rw [Prod.mk.injEq] at hcall
        exact absurd hcall.1.symm hr2

/-- C7: Once an exact triple of sender, originator and candidate hash has
been recorded by a call that wrote the hash into the sender's incoming row
(any outcome other than NotInGroup or PeerExcess), every later resubmission
of that exact triple, after any interleaving of further admission calls, is
rejected PeerExcess and leaves the state unchanged; it is never re-accepted. -/
theorem c7_exact_duplicate_always_peer_excess (t : DirectInGroup)
    (s o : ValidatorIndex) (h : CandidateHash)
    (r : Except RejectIncoming AcceptIncoming) (t1 : DirectInGroup)
    (cs : List (ValidatorIndex × ValidatorIndex × CandidateHash))
    (hw : Wf t)
    (hcall : t.handle_incoming_seconded s o h = (r, t1))
    (hr1 : r ≠ .error .NotInGroup) (hr2 : r ≠ .error .PeerExcess) :
    (applyCalls t1 cs).handle_incoming_seconded s o h =
      (.error .PeerExcess, applyCalls t1 cs) := by
  obtain ⟨si, hsi, hne, hv1, ho1, hrow⟩ :=
    recorded_rowHolds t s o h r t1 hw hcall hr1 hr2
  obtain ⟨hv2, ho2, -⟩ := applyCalls_config t1 cs
  refine rowHolds_rejects _ s o h si ?_ ?_ ?_
  · rw [hv2, hv1]
    exact hsi
  · rw [ho2, ho1]
    exact hne
  · exact rowHolds_applyCalls t1 si h cs hrow

theorem c7_witness :
    (applyCalls ⟨[⟨0⟩, ⟨1⟩], 0, 1, [none, some 5], [none, some 5]⟩
        [(⟨1⟩, ⟨1⟩, 6)]).handle_incoming_seconded ⟨1⟩ ⟨1⟩ 5 =
      (.error .PeerExcess,
        applyCalls ⟨[⟨0⟩, ⟨1⟩], 0, 1, [none, some 5], [none, some 5]⟩
          [(⟨1⟩, ⟨1⟩, 6)]) :=
  c7_exact_duplicate_always_peer_excess
    ⟨[⟨0⟩, ⟨1⟩], 0, 1, [none, none], [none, none]⟩ ⟨1⟩ ⟨1⟩ 5
    (.ok .YesUnknown) ⟨[⟨0⟩, ⟨1⟩], 0, 1, [none, some 5], [none, some 5]⟩
    [(⟨1⟩, ⟨1⟩, 6)] (by unfold Wf; decide) (by decide) (by decide) (by decide)

theorem incoming_range_fst (t : DirectInGroup) (si : Nat) :
    (t.incoming_range si si).1 =
      ibaseOf t.validators t.our_index t.seconding_limit si := by
  unfold DirectInGroup.incoming_range DirectInGroup.adjust_for_skipped_self
      ibaseOf
  rfl

theorem accepted_range_fst (t : DirectInGroup) (si : Nat) :
    (t.accepted_range si).1 = abaseOf t.seconding_limit si := by
  unfold DirectInGroup.accepted_range abaseOf
  rfl

theorem rowInv_wf (g : List ValidatorIndex) (our L si : Nat)
    (done : List CandidateHash) (t : DirectInGroup)
    (hour : our < g.length) (hinv : RowInv g our L si done t) : Wf t := by
  obtain ⟨hv, ho, hL, hil, hal, -⟩ := hinv
  refine ⟨?_, ?_, ?_, ?_⟩
  · rw [hv]
    intro he
    rw [he] at hour
    simp at hour
  · rw [hv, ho]
    exact hour
  · rw [hv, hL]
    exact hil
  · rw [hv, hL]
    exact hal

theorem incoming_range_snd (t : DirectInGroup) (s o : Nat) :
    (t.incoming_range s o).2 = (t.incoming_range s o).1 + t.seconding_limit :=
  rfl

theorem accepted_range_snd (t : DirectInGroup) (o : Nat) :
    (t.accepted_range o).2 = (t.accepted_range o).1 + t.seconding_limit :=
  rfl

theorem rowInv_step_full (g : List ValidatorIndex) (our L si : Nat)
    (s o : ValidatorIndex) (done : List CandidateHash) (h : CandidateHash)
    (t : DirectInGroup)
    (hsi : index_in_group g s = some si) (hne : si ≠ our)
    (hinv : RowInv g our L si done t) (hdl : done.length = L)
    (hnotin : h ∉ done) :
    t.handle_incoming_seconded s o h = (.error .PeerExcess, t) := by
  obtain ⟨hv, ho, hL, hil, hal, hiw, hie, haw, hae⟩ := hinv
  have hguard : ¬(si = t.our_index ∨ si = t.our_index) := by
    rw [ho]
    intro hc
    rcases hc with hc | hc <;> exact hne hc
  have hbefore : ∀ m, m < done.length → ∃ c, done[m]? = some c ∧ c ≠ h := by
    intro m hm
    rcases hcm : done[m]? with _ | c
    · rw [List.getElem?_eq_getElem hm] at hcm
      exact Option.noConfusion hcm
    · obtain ⟨hm2, hceq⟩ := List.getElem?_eq_some.mp hcm
      refine ⟨c, rfl, ?_⟩
      intro he
      exact hnotin (he ▸ hceq ▸ List.getElem_mem hm2)
  have hscan : scanSlots t.incoming h (t.incoming_range si si).1
      ((t.incoming_range si si).2 - (t.incoming_range si si).1) = .full := by
    rw [incoming_range_span, incoming_range_fst, hv, ho, hL]
    refine scanSlots_eq_full _ _ _ _ ?_
    intro m hm
    obtain ⟨c, hc, hch⟩ := hbefore m (by omega)
    exact ⟨c, hiw m c hc, hch⟩
  unfold DirectInGroup.handle_incoming_seconded
  simp only [hv, hsi]
  rw [if_neg hguard]
  simp only [hscan]

theorem rowInv_step_accept (g : List ValidatorIndex) (our L si : Nat)
    (s o : ValidatorIndex) (done : List CandidateHash) (h : CandidateHash)
    (t : DirectInGroup)
    (hsi : index_in_group g s = some si) (hne : si ≠ our)
    (hour : our < g.length)
    (hinv : RowInv g our L si done t) (hlt : done.length < L)
    (hnotin : h ∉ done) :
    t.handle_incoming_seconded s o h =
      (.ok .YesUnknown,
        { t with
          incoming := t.incoming.set (ibaseOf g our L si + done.length) (some h),
          accepted := t.accepted.set (abaseOf L si + done.length) (some h) }) ∧
    RowInv g our L si (done ++ [h])
      { t with
        incoming := t.incoming.set (ibaseOf g our L si + done.length) (some h),
        accepted := t.accepted.set (abaseOf L si + done.length) (some h) } := by
  obtain ⟨hv, ho, hL, hil, hal, hiw, hie, haw, hae⟩ := hinv
  have hsilt : si < g.length := index_in_group_lt_length g s si hsi
  have hwf : Wf t :=
    rowInv_wf g our L si done t hour ⟨hv, ho, hL, hil, hal, hiw, hie, haw, hae⟩
  have hguard : ¬(si = t.our_index ∨ si = t.our_index) := by
    rw [ho]
    intro hc
    rcases hc with hc | hc <;> exact hne hc
  have hbefore : ∀ m, m < done.length → ∃ c, done[m]? = some c ∧ c ≠ h := by
    intro m hm
    rcases hcm : done[m]? with _ | c
    · rw [List.getElem?_eq_getElem hm] at hcm
      exact Option.noConfusion hcm
    · obtain ⟨hm2, hceq⟩ := List.getElem?_eq_some.mp hcm
      refine ⟨c, rfl, ?_⟩
      intro he
      exact hnotin (he ▸ hceq ▸ List.getElem_mem hm2)
  have hib : ibaseOf g our L si + done.length < t.incoming.length := by
    refine incoming_range_bound t si hwf (by rwa [hv]) (by rw [ho]; exact hne)
      _ ?_ ?_
    · rw [incoming_range_fst, hv, ho, hL]
      omega
    · rw [incoming_range_snd, incoming_range_fst, hv, ho, hL]
      omega
  have hab : abaseOf L si + done.length < t.accepted.length := by
    refine accepted_range_bound t si hwf (by rwa [hv]) _ ?_ ?_
    · rw [accepted_range_fst, hL]
      omega
    · rw [accepted_range_snd, accepted_range_fst, hL]
      omega
  have hiscan : scanSlots t.incoming h (t.incoming_range si si).1
      ((t.incoming_range si si).2 - (t.incoming_range si si).1) =
      .emptyAt (ibaseOf g our L si + done.length) := by
    rw [incoming_range_span, incoming_range_fst, hv, ho, hL]
    refine scanSlots_eq_emptyAt _ _ _ _ done.length hlt ?_ ?_
    · intro m hm
      obtain ⟨c, hc, hch⟩ := hbefore m hm
      exact ⟨c, hiw m c hc, hch⟩
    · exact hie done.length le_rfl hlt
  have haccept :
      (⟨g, t.our_index, t.seconding_limit,
        t.incoming.set (ibaseOf g our L si + done.length) (some h),
        t.accepted⟩ : DirectInGroup).handle_accepted_incoming si h =
      (.ok .YesUnknown,
        (⟨g, t.our_index, t.seconding_limit,
          t.incoming.set (ibaseOf g our L si + done.length) (some h),
          t.accepted.set (abaseOf L si + done.length) (some h)⟩ :
            DirectInGroup)) := by
    unfold DirectInGroup.handle_accepted_incoming
    have hascan : scanSlots
        (⟨g, t.our_index, t.seconding_limit,
          t.incoming.set (ibaseOf g our L si + done.length) (some h),
          t.accepted⟩ : DirectInGroup).accepted h
        ((⟨g, t.our_index, t.seconding_limit,
          t.incoming.set (ibaseOf g our L si + done.length) (some h),
          t.accepted⟩ : DirectInGroup).accepted_range si).1
        (((⟨g, t.our_index, t.seconding_limit,
          t.incoming.set (ibaseOf g our L si + done.length) (some h),
          t.accepted⟩ : DirectInGroup).accepted_range si).2 -
          ((⟨g, t.our_index, t.seconding_limit,
          t.incoming.set (ibaseOf g our L si + done.length) (some h),
          t.accepted⟩ : DirectInGroup).accepted_range si).1) =
        .emptyAt (abaseOf L si + done.length) := by
      show scanSlots t.accepted h (t.accepted_range si).1
        ((t.accepted_range si).2 - (t.accepted_range si).1) = _
      rw [accepted_range_span, accepted_range_fst, hL]
      refine scanSlots_eq_emptyAt _ _ _ _ done.length hlt ?_ ?_
      · intro m hm
        obtain ⟨c, hc, hch⟩ := hbefore m hm
        exact ⟨c, haw m c hc, hch⟩
      · exact hae done.length le_rfl hlt
    simp only [hascan]
  constructor
  · unfold DirectInGroup.handle_incoming_seconded
    simp only [hv, hsi]
    rw [if_neg hguard]
    simp only [hiscan]
    exact haccept
  · refine ⟨hv, ho, hL, ?_, ?_, ?_, ?_, ?_, ?_⟩
    · rw [List.length_set]
      exact hil
    · rw [List.length_set]
      exact hal
    · intro m c hmc
      have hmlen : m < done.length + 1 := by
        have := (List.getElem?_eq_some.mp hmc).1
        simpa [List.length_append] using this
      rcases Nat.lt_or_ge m done.length with hmlt | hmge
      · rw [List.getElem?_append_left hmlt] at hmc
        have hold := hiw m c hmc
        have hne2 : ibaseOf g our L si + done.length ≠
            ibaseOf g our L si + m := by omega
        show (t.incoming.set (ibaseOf g our L si + done.length)
          (some h)).getD (ibaseOf g our L si + m) none = some c
        rw [getD_set_ne _ _ _ _ hne2]
        exact hold
      · have hmeq : m = done.length := by omega
        rw [hmeq] at hmc
        rw [List.getElem?_concat_length] at hmc
        have hch : c = h := (Option.some.inj hmc).symm
        rw [hch, hmeq]
        show (t.incoming.set (ibaseOf g our L si + done.length)
          (some h)).getD (ibaseOf g our L si + done.length) none = some h
        exact getD_set_self _ _ _ hib
    · intro m hm1 hm2
      have hm1b : done.length + 1 ≤ m := by
        simpa [List.length_append] using hm1
      have hne2 : ibaseOf g our L si + done.length ≠
          ibaseOf g our L si + m := by omega
      show (t.incoming.set (ibaseOf g our L si + done.length)
        (some h)).getD (ibaseOf g our L si + m) none = none
      rw [getD_set_ne _ _ _ _ hne2]
      exact hie m (by omega) hm2
    · intro m c hmc
      have hmlen : m < done.length + 1 := by
        have := (List.getElem?_eq_some.mp hmc).1
        simpa [List.length_append] using this
      rcases Nat.lt_or_ge m done.length with hmlt | hmge
      · rw [List.getElem?_append_left hmlt] at hmc
        have hold := haw m c hmc
        have hne2 : abaseOf L si + done.length ≠ abaseOf L si + m := by omega
        show (t.accepted.set (abaseOf L si + done.length)
          (some h)).getD (abaseOf L si + m) none = some c
        rw [getD_set_ne _ _ _ _ hne2]
        exact hold
      · have hmeq : m = done.length := by omega
        rw [hmeq] at hmc
        rw [List.getElem?_concat_length] at hmc
        have hch : c = h := (Option.some.inj hmc).symm
        rw [hch, hmeq]
        show (t.accepted.set (abaseOf L si + done.length)
          (some h)).getD (abaseOf L si + done.length) none = some h
        exact getD_set_self _ _ _ hab
    · intro m hm1 hm2
      have hm1b : done.length + 1 ≤ m := by
        simpa [List.length_append] using hm1
      have hne2 : abaseOf L si + done.length ≠ abaseOf L si + m := by omega
      show (t.accepted.set (abaseOf L si + done.length)
        (some h)).getD (abaseOf L si + m) none = none
      rw [getD_set_ne _ _ _ _ hne2]
      exact hae m (by omega) hm2

theorem rowInv_run (g : List ValidatorIndex) (our L si : Nat)
    (s o : ValidatorIndex) (hs : List CandidateHash)
    (done : List CandidateHash) (t : DirectInGroup)
    (hsi : index_in_group g s = some si) (hne : si ≠ our)
    (hour : our < g.length)
    (hinv : RowInv g our L si done t) (hdl : done.length ≤ L)
    (hnd : (done ++ hs).Nodup) :
    ∀ i, i < hs.length → ((runSeconded t s o hs).1)[i]? =
      some (if done.length + i < L then .ok .YesUnknown
        else .error .PeerExcess) := by
  induction hs generalizing t done with
  | nil =>
    intro i hi
    simp at hi
  | cons h hs ih =>
    intro i hi
    have hnotin : h ∉ done := by
      intro hmem
      exact List.disjoint_of_nodup_append hnd hmem (List.mem_cons_self h hs)
    rcases Nat.lt_or_ge done.length L with hlt | hge
    · obtain ⟨hcall, hinv2⟩ :=
        rowInv_step_accept g our L si s o done h t hsi hne hour hinv hlt hnotin
      rw [runSeconded]
      simp only [hcall]
      rcases i with _ | i
      · simp only [List.getElem?_cons_zero]
        rw [if_pos (by omega)]
      · simp only [List.getElem?_cons_succ]
        have hnd2 : ((done ++ [h]) ++ hs).Nodup := by
          rw [← List.append_cons]
          exact hnd
        have := ih (done ++ [h]) _ hinv2
          (by simp; omega) hnd2 i (by simpa using hi)
        rw [this]
        have harith : (done ++ [h]).length + i = done.length + (i + 1) := by
          simp
          omega
        rw [harith]
    · have heq : done.length = L := by omega
      have hcall := rowInv_step_full g our L si s o done h t hsi hne hinv heq
        hnotin
      rw [runSeconded]
      simp only [hcall]
      rcases i with _ | i
      · simp only [List.getElem?_cons_zero]
        rw [if_neg (by omega)]
      · simp only [List.getElem?_cons_succ]
        have hnd2 : (done ++ hs).Nodup :=
          List.Nodup.sublist
            ((List.sublist_cons_self h hs).append_left done) hnd
        have := ih done _ hinv hdl hnd2 i (by simpa using hi)
        rw [this]
        rw [if_neg (by omega), if_neg (by omega)]

/-- C6: From a freshly constructed tracker, for a fixed pair of an in-group
non-self sender and an in-group non-self originator, submitting any sequence
of pairwise distinct candidate hashes yields acceptance (YesUnknown, the
originator capacity never being exhausted first here) for each of the first
min(L, k) submissions and Reject PeerExcess for every submission after the
incoming row holds L distinct hashes. -/
theorem c6_fresh_pair_bounded_acceptance (g : List ValidatorIndex)
    (own : ValidatorIndex) (L : Nat) (t : DirectInGroup)
    (s o : ValidatorIndex) (si oi : Nat)
    (hs : List CandidateHash) (i : Nat)
    (hn : DirectInGroup.new g own L = some t)
    (hsi : index_in_group g s = some si) (hsne : si ≠ t.our_index)
    (hoi : index_in_group g o = some oi) (hone : oi ≠ t.our_index)
    (hnd : hs.Nodup) (hi : i < hs.length) :
    ((runSeconded t s o hs).1)[i]? =
      some (if i < L then .ok .YesUnknown else .error .PeerExcess) := by
  obtain ⟨hv, hour, hL, -, hinc, hacc⟩ := new_inv g own L t hn
  have hinv : RowInv g t.our_index L si [] t := by
    refine ⟨hv, rfl, hL, ?_, ?_, ?_, ?_, ?_, ?_⟩
    · rw [hinc, List.length_replicate]
    · rw [hacc, List.length_replicate]
    · intro m c hmc
      simp at hmc
    · intro m hm1 hm2
      rw [hinc]
      exact getD_replicate _ _
    · intro m c hmc
      simp at hmc
    · intro m hm1 hm2
      rw [hacc]
      exact getD_replicate _ _
  have := rowInv_run g t.our_index L si s o hs [] t hsi hsne hour hinv
    (by simp) (by simpa using hnd) i hi
  simpa using this

theorem c6_witness :
    ((runSeconded ⟨[⟨0⟩, ⟨1⟩], 0, 1, [none, none], [none, none]⟩
      ⟨1⟩ ⟨1⟩ [10, 20]).1)[1]? = some (.error .PeerExcess) := by
  have := c6_fresh_pair_bounded_acceptance [⟨0⟩, ⟨1⟩] ⟨0⟩ 1
    ⟨[⟨0⟩, ⟨1⟩], 0, 1, [none, none], [none, none]⟩ ⟨1⟩ ⟨1⟩ 1 1 [10, 20] 1
    (by decide) (by decide) (by decide) (by decide) (by decide) (by decide)
    (by decide)
  simpa using this
